import Mathlib

/-!
Verification of the document question-answering app (`app_open_source.py`).

The development shallowly embeds the program's core functions:

* `extract_text_from_file` — dispatch on the lower-cased filename suffix to a
  format-specific parser (`.txt` / `.pdf` / `.docx` / `.html` / `.htm`),
  returning the empty string for unrecognized extensions.  The external
  parsing libraries (pypdf, python-docx, BeautifulSoup) are modelled as
  functions returning `Except String _`: a `.error` value models the library
  raising an exception, which the source does not catch.
* `get_answer` — truncates the context to its first 4000 characters before
  invoking the external question-answering capability.
* `extract_abbreviations` — a faithful translation of the regular expression
  search (Python `re.findall` with the pattern
  `\b([A-Za-z][A-Za-z\s\-]{2,})\s*\(([A-Z]{2,10})\)`), including leftmost
  non-overlapping scanning, greedy quantifiers with backtracking, and the
  word-boundary assertion, followed by whitespace normalization and the
  first-occurrence-wins dictionary build.
* the Q&A pipeline (concatenation with per-file delimiter headers and the
  `all_text.strip()` emptiness check) and the abbreviation-index pipeline
  (per-file extraction, sorted rendering, "no abbreviations found" case).

Text is modelled as `List Char` (Python strings are sequences of code
points); file contents are `List Nat` byte sequences.  The character-class
predicates are the ASCII restrictions of Python's `\s`, `\w`, `[A-Za-z]`,
`[A-Z]`; all inputs appearing in the theorems are ASCII.
-/

/-- ASCII letter, the class `[A-Za-z]` of the source pattern. -/
def isAsciiLetter (c : Char) : Bool :=
  ('A' ≤ c && c ≤ 'Z') || ('a' ≤ c && c ≤ 'z')

/-- Whitespace as matched by Python's `\s` and stripped by `str.strip` /
`str.split` (ASCII part): space, tab, newline, carriage return, vertical
tab, form feed. -/
def isPyWhitespace (c : Char) : Bool :=
  c = ' ' || c = '\t' || c = '\n' || c = '\r' || c = '\x0b' || c = '\x0c'

/-- Word character for Python's `\b` word-boundary assertion (ASCII part of
`\w`): letters, digits, underscore. -/
def isWordChar (c : Char) : Bool :=
  isAsciiLetter c || ('0' ≤ c && c ≤ '9') || c = '_'

/-- Character class `[A-Za-z\s\-]` of the source pattern: letters,
whitespace, hyphen. -/
def isTermChar (c : Char) : Bool :=
  isAsciiLetter c || isPyWhitespace c || c = '-'

/-- Uppercase ASCII letter, the class `[A-Z]` of the source pattern. -/
def isUpperChar (c : Char) : Bool :=
  'A' ≤ c && c ≤ 'Z'

/-- Python `str.strip()`: drop leading and trailing whitespace. -/
def pyStrip (s : List Char) : List Char :=
  ((s.dropWhile isPyWhitespace).reverse.dropWhile isPyWhitespace).reverse

/-- Worker for `pySplitWs`: `cur` accumulates the current word in reverse. -/
def pySplitWsGo : List Char → List Char → List (List Char)
  | [], cur => if cur.isEmpty then [] else [cur.reverse]
  | c :: t, cur =>
    if isPyWhitespace c then
      if cur.isEmpty then pySplitWsGo t [] else cur.reverse :: pySplitWsGo t []
    else
      pySplitWsGo t (c :: cur)

/-- Python `str.split()` with no argument: split on runs of whitespace,
discarding empty pieces. -/
def pySplitWs (s : List Char) : List (List Char) :=
  pySplitWsGo s []

/-- Python `" ".join(words)`. -/
def joinSpace : List (List Char) → List Char
  | [] => []
  | w :: ws =>
    match ws with
    | [] => w
    | _ :: _ => w ++ ' ' :: joinSpace ws

/-- The source's full-term normalization `" ".join(full_term.split())`:
collapse whitespace runs to single spaces and trim the ends. -/
def normalizeWs (s : List Char) : List Char :=
  joinSpace (pySplitWs s)

/-- Python `str.lower()` restricted to ASCII: map `A`–`Z` to `a`–`z`. -/
def pyLowerChar (c : Char) : Char :=
  if 'A' ≤ c && c ≤ 'Z' then Char.ofNat (c.toNat + 32) else c

/-- Lower-case a character list, modelling `str.lower()` on ASCII text. -/
def pyLower (s : List Char) : List Char :=
  s.map pyLowerChar

/-- Final path component, modelling `pathlib.Path(name).name`: the part of
the string after the last `/`. -/
def pyPathFinal (s : List Char) : List Char :=
  (s.reverse.takeWhile (fun c => c ≠ '/')).reverse

/-- Extension of a filename, modelling `pathlib.Path(name).suffix`: on the
final component `base`, with `i` the index of the last dot, the suffix is
`base[i:]` when `0 < i < len(base) - 1` and empty otherwise. -/
def pySuffix (name : String) : List Char :=
  let base := pyPathFinal name.data
  match base.reverse.findIdx? (fun c => c = '.') with
  | none => []
  | some j =>
    let i := base.length - 1 - j
    if 0 < i ∧ i < base.length - 1 then base.drop i else []

/-- Continuation byte `10xxxxxx` of a UTF-8 sequence. -/
def isContByte (b : Nat) : Bool :=
  0x80 ≤ b && b ≤ 0xBF

/-- Constraint on the first continuation byte of a three-byte UTF-8
sequence (excludes overlong forms and surrogates). -/
def cont3Ok (b c1 : Nat) : Bool :=
  if b = 0xE0 then 0xA0 ≤ c1 && c1 ≤ 0xBF
  else if b = 0xED then 0x80 ≤ c1 && c1 ≤ 0x9F
  else isContByte c1

/-- Constraint on the first continuation byte of a four-byte UTF-8
sequence (excludes overlong forms and code points above `0x10FFFF`). -/
def cont4Ok (b c1 : Nat) : Bool :=
  if b = 0xF0 then 0x90 ≤ c1 && c1 ≤ 0xBF
  else if b = 0xF4 then 0x80 ≤ c1 && c1 ≤ 0x8F
  else isContByte c1

/-- Worker for `utf8DecodeIgnore`.  The fuel decreases by one at each step
while at least one byte is consumed, so fuel equal to the byte count
suffices. -/
def utf8DecodeGo : Nat → List Nat → List Char
  | 0, _ => []
  | _ + 1, [] => []
  | fuel + 1, b :: rest =>
    if b < 0x80 then
      Char.ofNat b :: utf8DecodeGo fuel rest
    else if 0xC2 ≤ b && b ≤ 0xDF then
      match rest with
      | c1 :: r2 =>
        if isContByte c1 then
          Char.ofNat ((b - 0xC0) * 64 + (c1 - 0x80)) :: utf8DecodeGo fuel r2
        else utf8DecodeGo fuel (c1 :: r2)
      | [] => []
    else if 0xE0 ≤ b && b ≤ 0xEF then
      match rest with
      | c1 :: c2 :: r3 =>
        if cont3Ok b c1 && isContByte c2 then
          Char.ofNat ((b - 0xE0) * 4096 + (c1 - 0x80) * 64 + (c2 - 0x80)) :: utf8DecodeGo fuel r3
        else utf8DecodeGo fuel (c1 :: c2 :: r3)
      | r => utf8DecodeGo fuel r
    else if 0xF0 ≤ b && b ≤ 0xF4 then
      match rest with
      | c1 :: c2 :: c3 :: r4 =>
        if cont4Ok b c1 && isContByte c2 && isContByte c3 then
          Char.ofNat ((b - 0xF0) * 262144 + (c1 - 0x80) * 4096 + (c2 - 0x80) * 64 + (c3 - 0x80))
            :: utf8DecodeGo fuel r4
        else utf8DecodeGo fuel (c1 :: c2 :: c3 :: r4)
      | r => utf8DecodeGo fuel r
    else
      utf8DecodeGo fuel rest

/-- Model of Python `bytes.decode("utf-8", errors="ignore")` used by the
`.txt` branch of the source: decode UTF-8, silently skipping bytes that do
not form a valid sequence.  It is total — decoding never raises. -/
def utf8DecodeIgnore (l : List Nat) : List Char :=
  utf8DecodeGo l.length l

/-- Byte sequence of an ASCII string, for building concrete file contents. -/
def asciiBytes (s : String) : List Nat :=
  s.data.map Char.toNat

/-- An uploaded file as the extractor sees it: `uploaded_file.name` and the
raw bytes produced by `uploaded_file.read()`. -/
structure UploadedFile where
  name : String
  content : List Nat

/-- Behavior of the three external parsing libraries the extractor calls.
Each fallible library is a function into `Except String _`, where `.error`
models the library raising an exception:

* `pdfPages` — `PdfReader(io.BytesIO(b))` followed by
  `page.extract_text()` on each page in order (`none` models a page
  returning `None`);
* `docxParagraphs` — `docx.Document(io.BytesIO(b))` followed by `p.text`
  for each paragraph in order;
* `htmlText` — `BeautifulSoup(b, "html.parser")`, removal of `script` and
  `style` tags, then `get_text(separator="\n")`.  It is total because
  Python's lenient `html.parser` accepts arbitrary input without raising. -/
structure Parsers where
  pdfPages : List Nat → Except String (List (Option String))
  docxParagraphs : List Nat → Except String (List String)
  htmlText : List Nat → String

/-- Model of the external pypdf library: on an empty stream `PdfReader`
raises `EmptyFileError("Cannot read an empty file")`.  Full PDF parsing is
outside this repository; non-empty streams are modelled as yielding no
pages, and no theorem below depends on that case. -/
def pypdfModel : List Nat → Except String (List (Option String)) :=
  fun content =>
    if content.isEmpty then .error "EmptyFileError: Cannot read an empty file"
    else .ok []

/-- Model of the external python-docx library: on bytes that are not a ZIP
archive (in particular an empty stream) the underlying `zipfile` module
raises `BadZipFile("File is not a zip file")`.  Full DOCX parsing is
outside this repository; non-empty streams are modelled as yielding no
paragraphs, and no theorem below depends on that case. -/
def pythonDocxModel : List Nat → Except String (List String) :=
  fun content =>
    if content.isEmpty then .error "BadZipFile: File is not a zip file"
    else .ok []

/-- Model of BeautifulSoup with `html.parser`: it never raises, and on an
empty input `get_text` returns the empty string.  Only the empty input is
exercised by the theorems below. -/
def bs4Model : List Nat → String :=
  fun _ => ""

/-- The concrete parser bundle used for closed evaluations. -/
def realParsers : Parsers :=
  ⟨pypdfModel, pythonDocxModel, bs4Model⟩

/-- The source's `extract_text_from_file`: dispatch on the lower-cased
filename suffix; decode `.txt` ignoring errors; join PDF page texts
(`page.extract_text() or ""`) with newlines; join DOCX paragraph texts
with newlines; take the text of parsed HTML; return `""` for any other
extension.  There is no `try`/`except` in the source, so a parser `.error`
passes through unchanged. -/
def extract_text_from_file (P : Parsers) (f : UploadedFile) : Except String String :=
  let sfx := pyLower (pySuffix f.name)
  if sfx = ('.' :: ['t', 'x', 't']) then
    .ok (String.mk (utf8DecodeIgnore f.content))
  else if sfx = ('.' :: ['p', 'd', 'f']) then
    match P.pdfPages f.content with
    | .error e => .error e
    | .ok pages => .ok (String.intercalate "\n" (pages.map (fun t => t.getD "")))
  else if sfx = ('.' :: ['d', 'o', 'c', 'x']) then
    match P.docxParagraphs f.content with
    | .error e => .error e
    | .ok paras => .ok (String.intercalate "\n" paras)
  else if sfx = ('.' :: ['h', 't', 'm', 'l']) ∨ sfx = ('.' :: ['h', 't', 'm']) then
    .ok (P.htmlText f.content)
  else
    .ok ""

/-- The slice `context[:4000]` taken by `get_answer` before invoking the
model: the first 4000 characters of the string. -/
def truncate4000 (context : String) : String :=
  String.mk (context.data.take 4000)

/-- The source's `get_answer`, parameterized by the external
question-answering capability `qaModel`: truncate the context to 4000
characters, call the capability, return its answer. -/
def get_answer (qaModel : String → String → String) (question context : String) : String :=
  let context := truncate4000 context
  qaModel question context

/-- Match `[A-Z]{k}\)` at the start of `s` for the exact count `k`,
returning the captured acronym and the text after `)`. -/
def matchAcronymLen (s : List Char) (k : Nat) : Option (List Char × List Char) :=
  let g := s.take k
  if g.length = k && g.all isUpperChar then
    match s.drop k with
    | ')' :: rest => some (g, rest)
    | _ => none
  else none

/-- Match `([A-Z]{2,10})\)` with greedy backtracking: try the repetition
count `n` first, then `n - 1`, …, down to 2. -/
def matchAcronymFrom : Nat → List Char → Option (List Char × List Char)
  | 0, _ => none
  | 1, _ => none
  | n + 2, s =>
    match matchAcronymLen s (n + 2) with
    | some r => some r
    | none => matchAcronymFrom (n + 1) s

/-- Match `([A-Z]{2,10})\)` at the start of `s`, greedily preferring the
longest acronym (10 letters) as Python's backtracking does. -/
def matchAcronym (s : List Char) : Option (List Char × List Char) :=
  matchAcronymFrom 10 s

/-- Match `\s{k}\(` at the start of `s` for the exact count `k`, returning
the text after `(`. -/
def matchWsParen (s : List Char) (k : Nat) : Option (List Char) :=
  if (s.take k).length = k && (s.take k).all isPyWhitespace then
    match s.drop k with
    | '(' :: rest => some rest
    | _ => none
  else none

/-- Match `\s*\(` with greedy backtracking: try `n` whitespace characters
first, then fewer, down to zero. -/
def matchOpenFrom : Nat → List Char → Option (List Char)
  | 0, s => matchWsParen s 0
  | n + 1, s =>
    match matchWsParen s (n + 1) with
    | some r => some r
    | none => matchOpenFrom n s

/-- Match `\s*\(` at the start of `s`, greedily preferring the longest
whitespace run. -/
def matchOpen (s : List Char) : Option (List Char) :=
  matchOpenFrom (s.takeWhile isPyWhitespace).length s

/-- Try the tail of the pattern with the group-1 repetition
`[A-Za-z\s\-]{n}` (for `n ≥ 2`), backtracking downwards: `c` is the
initial `[A-Za-z]` character, `t` the text after it.  Returns the captured
pair `(full term, acronym)` and the text after the match. -/
def matchG1From : Nat → Char → List Char → Option (List Char × List Char × List Char)
  | 0, _, _ => none
  | 1, _, _ => none
  | n + 2, c, t =>
    let attempt :=
      if (t.take (n + 2)).length = n + 2 && (t.take (n + 2)).all isTermChar then
        match matchOpen (t.drop (n + 2)) with
        | some s1 =>
          match matchAcronym s1 with
          | some (g2, rest) => some (c :: t.take (n + 2), g2, rest)
          | none => none
        | none => none
      else none
    match attempt with
    | some r => some r
    | none => matchG1From (n + 1) c t

/-- Match the whole pattern `([A-Za-z][A-Za-z\s\-]{2,})\s*\(([A-Z]{2,10})\)`
at the start of `s` (word-boundary checking is done by the scanner).
Greedy: the group-1 repetition starts from the longest run of
`[A-Za-z\s\-]` characters available. -/
def matchAt : List Char → Option (List Char × List Char × List Char)
  | [] => none
  | c :: t =>
    if isAsciiLetter c then
      matchG1From (t.takeWhile isTermChar).length c t
    else none

/-- Scanner for `re.findall`: walk the text left to right; at each position
where the `\b` word-boundary assertion holds (the word-character status of
the previous character, `prevWord`, differs from that of the current one)
try the pattern; on success emit the captured groups and resume after the
match (whose last character is `)`, not a word character); otherwise
advance one character.  `fuel` bounds the recursion and is initialized to
the text length, which suffices because every step consumes at least one
character. -/
def findallAux : Nat → Bool → List Char → List (List Char × List Char)
  | 0, _, _ => []
  | _ + 1, _, [] => []
  | fuel + 1, prevWord, c :: t =>
    if prevWord ≠ isWordChar c then
      match matchAt (c :: t) with
      | some (g1, g2, rest) => (g1, g2) :: findallAux fuel false rest
      | none => findallAux fuel (isWordChar c) t
    else findallAux fuel (isWordChar c) t

/-- All matches of the source pattern in document order, as Python's
`re.findall(pattern, text)` returns them: a list of
`(full term, acronym)` capture pairs. -/
def findall (s : List Char) : List (List Char × List Char) :=
  findallAux s.length false s

/-- The source's dictionary-building loop: for each `(full_term, abbr)`
match in order, normalize the full term, strip the acronym, and insert
only if the acronym is not yet bound (first occurrence wins; Python dicts
preserve insertion order, modelled by appending). -/
def buildDict : List (List Char × List Char) → List (String × String) → List (String × String)
  | [], d => d
  | (full_term, abbr) :: ms, d =>
    let full_term_clean := String.mk (normalizeWs full_term)
    let ab := String.mk (pyStrip abbr)
    buildDict ms (if (List.lookup ab d).isSome then d else d ++ [(ab, full_term_clean)])

/-- The source's `extract_abbreviations`: run the pattern over the text and
build the first-occurrence-wins mapping, returned as the dictionary's
key-value pairs in insertion order. -/
def extract_abbreviations (text : String) : List (String × String) :=
  buildDict (findall text.data) []

/-- Scanner for the pattern as the specification describes it, which does
not require a word boundary before the full term: at every position try
the pattern; otherwise advance one character. -/
def specFindallAux : Nat → List Char → List (List Char × List Char)
  | 0, _ => []
  | _ + 1, [] => []
  | fuel + 1, c :: t =>
    match matchAt (c :: t) with
    | some (g1, g2, rest) => (g1, g2) :: specFindallAux fuel rest
    | none => specFindallAux fuel t

/-- Modelled from the spec: the abbreviation extractor whose pattern is
exactly the one the specification states — a run of letters, spaces and
hyphens of total length at least 3 beginning with a letter, optional
whitespace, `(`, 2–10 consecutive uppercase ASCII letters, `)` — with no
word-boundary requirement, followed by the same normalization and
first-occurrence-wins deduplication. -/
def spec_extract_abbreviations (text : String) : List (String × String) :=
  buildDict (specFindallAux text.data.length text.data) []

/-- Outcome of one press of the "Get Answer" button, as far as the core
logic is concerned.  `answered context` records that the external
answer-providing capability is invoked via `get_answer` with the given
context string. -/
inductive QAOutcome where
  | warnNoQuestion
  | warnNoFiles
  | errorNoText
  | answered (context : String)
  deriving DecidableEq

/-- The Q&A pipeline's accumulation loop: for each file append the
delimiter header and the extracted text to `all_text`.  A parser failure
in any file propagates (there is no `try`/`except`), aborting the loop. -/
def build_all_text (P : Parsers) : List UploadedFile → String → Except String String
  | [], acc => .ok acc
  | f :: fs, acc =>
    match extract_text_from_file P f with
    | .error e => .error e
    | .ok text => build_all_text P fs (acc ++ "\n\n===== " ++ f.name ++ " =====\n\n" ++ text)

/-- Python's `str.strip()` on a `String`. -/
def pyStripStr (s : String) : String :=
  String.mk (pyStrip s.data)

/-- The "Get Answer" button handler: warn when the question or file list is
empty, build `all_text`, show the error state when `all_text.strip()` is
empty, and otherwise invoke the answering capability on `all_text`. -/
def qa_pipeline (P : Parsers) (question : String) (files : List UploadedFile) :
    Except String QAOutcome :=
  if question = "" then .ok .warnNoQuestion
  else if files.isEmpty then .ok .warnNoFiles
  else
    match build_all_text P files "" with
    | .error e => .error e
    | .ok all_text =>
      if pyStripStr all_text = "" then .ok .errorNoText
      else .ok (.answered all_text)

/-- Lexicographic strict comparison of character lists by code point —
Python's `<` on strings, which `sorted` uses. -/
def charListLt : List Char → List Char → Bool
  | [], [] => false
  | [], _ :: _ => true
  | _ :: _, [] => false
  | c :: cs, d :: ds =>
    if c.toNat < d.toNat then true
    else if d.toNat < c.toNat then false
    else charListLt cs ds

/-- Non-strict string comparison derived from `charListLt`, used to model
Python's ascending `sorted`. -/
def strLeB (a b : String) : Bool :=
  ! charListLt b.data a.data

/-- Insert a string into a sorted list, keeping it sorted ascending. -/
def insertStr (x : String) : List String → List String
  | [] => [x]
  | y :: t => if strLeB x y then x :: y :: t else y :: insertStr x t

/-- Insertion sort modelling Python's `sorted` on a list of strings. -/
def sortStrs : List String → List String
  | [] => []
  | x :: t => insertStr x (sortStrs t)

/-- Rendered abbreviation index for one mapping: the source iterates
`sorted(abbr_dict.keys())` and writes each key with its bound full term. -/
def renderIndex (d : List (String × String)) : List (String × String) :=
  (sortStrs (d.map Prod.fst)).map (fun k => (k, (List.lookup k d).getD ""))

/-- Output of the abbreviation-index pipeline for one file: either the
distinct "No abbreviations found in this article." indicator or the
rendered sorted index. -/
inductive AbbrOutput where
  | noAbbreviationsFound
  | index (entries : List (String × String))
  deriving DecidableEq

/-- The "Generate Abbreviation Index" handler's per-file body: extract the
text, run `extract_abbreviations`, and render either the "none found"
indicator or the entries in sorted key order.  A parser failure
propagates. -/
def abbr_pipeline_file (P : Parsers) (f : UploadedFile) : Except String AbbrOutput :=
  match extract_text_from_file P f with
  | .error e => .error e
  | .ok text =>
    if (extract_abbreviations text).isEmpty then .ok .noAbbreviationsFound
    else .ok (.index (renderIndex (extract_abbreviations text)))

/-- A value has no leading whitespace. -/
def noLeadWs : List Char → Bool
  | [] => true
  | c :: _ => ! isPyWhitespace c

/-- A value has no trailing whitespace. -/
def noTrailWs : List Char → Bool
  | [] => true
  | [c] => ! isPyWhitespace c
  | _ :: t => noTrailWs t

/-- A value has no two adjacent whitespace characters: every internal
whitespace run has length one. -/
def noDoubleWs : List Char → Bool
  | c :: d :: t => (! (isPyWhitespace c && isPyWhitespace d)) && noDoubleWs (d :: t)
  | _ => true

theorem lookup_append (a : String) (l₁ l₂ : List (String × String)) :
    List.lookup a (l₁ ++ l₂) =
      match List.lookup a l₁ with
      | some v => some v
      | none => List.lookup a l₂ := by
  induction l₁ with
  | nil => rfl
  | cons h t ih =>
    simp only [List.cons_append, List.lookup]
    cases a == h.1 <;> simp [ih]

theorem buildDict_lookup (ms : List (List Char × List Char)) (d : List (String × String))
    (a : String) :
    List.lookup a (buildDict ms d) =
      match List.lookup a d with
      | some v => some v
      | none =>
        (ms.find? (fun m => String.mk (pyStrip m.2) == a)).map
          (fun m => String.mk (normalizeWs m.1)) := by
  induction ms generalizing d with
  | nil =>
    simp only [buildDict, List.find?_nil, Option.map_none]
    cases List.lookup a d <;> rfl
  | cons m ms ih =>
    obtain ⟨ft, ab0⟩ := m
    simp only [buildDict]
    by_cases hs : (List.lookup (String.mk (pyStrip ab0)) d).isSome
    · rw [if_pos hs, ih d]
      by_cases ha : String.mk (pyStrip ab0) = a
      · subst ha
        obtain ⟨v, hv⟩ := Option.isSome_iff_exists.mp hs
        rw [hv]
      · rw [List.find?_cons_of_neg _ (by simpa using ha)]
    · rw [if_neg hs, ih (d ++ [(String.mk (pyStrip ab0), String.mk (normalizeWs ft))]),
        lookup_append]
      by_cases ha : String.mk (pyStrip ab0) = a
      · subst ha
        rw [Option.not_isSome_iff_eq_none.mp hs]
        rw [List.find?_cons_of_pos _ (by simp)]
        simp [List.lookup]
      · have : List.lookup a [(String.mk (pyStrip ab0), String.mk (normalizeWs ft))] = none := by
          simp [List.lookup, show (a == String.mk (pyStrip ab0)) = false from
            beq_eq_false_iff_ne.mpr (fun he => ha he.symm)]
        rw [this, List.find?_cons_of_neg _ (by simpa using ha)]
        cases List.lookup a d <;> rfl

/-- Claim C4 (confirmed): `extract_abbreviations` scans the matches in
left-to-right document order, and for each acronym the returned mapping
binds that acronym to the normalized full term of its first match; every
later match of the same acronym is discarded even when its full term
differs.  The lookup of any acronym in the result equals the normalized
full term of the first `re.findall` match carrying that acronym, and the
spec's example `alpha term (AT) and alpha thing (AT)` yields
`AT ↦ alpha term`. -/
theorem extract_abbreviations_first_occurrence_wins :
    (∀ text a, List.lookup a (extract_abbreviations text) =
      ((findall text.data).find? (fun m => String.mk (pyStrip m.2) == a)).map
        (fun m => String.mk (normalizeWs m.1))) ∧
    extract_abbreviations "alpha term (AT) and alpha thing (AT)" = [("AT", "alpha term")] := by
  constructor
  · intro text a
    rw [show extract_abbreviations text = buildDict (findall text.data) [] from rfl,
      buildDict_lookup]
    rfl
  · decide

theorem buildDict_mem (ms : List (List Char × List Char)) (d : List (String × String))
    (k v : String) (h : (k, v) ∈ buildDict ms d) :
    (k, v) ∈ d ∨ ∃ m ∈ ms, k = String.mk (pyStrip m.2) ∧ v = String.mk (normalizeWs m.1) := by
  induction ms generalizing d with
  | nil => exact Or.inl h
  | cons m ms ih =>
    obtain ⟨ft, ab0⟩ := m
    simp only [buildDict] at h
    rcases ih _ h with hd | ⟨m', hm', hk, hv⟩
    · by_cases hs : (List.lookup (String.mk (pyStrip ab0)) d).isSome
      · rw [if_pos hs] at hd
        exact Or.inl hd
      · rw [if_neg hs] at hd
        rcases List.mem_append.mp hd with hd | hd
        · exact Or.inl hd
        · simp only [List.mem_singleton, Prod.mk.injEq] at hd
          exact Or.inr ⟨(ft, ab0), List.mem_cons_self _ _, hd.1, hd.2⟩
    · exact Or.inr ⟨m', List.mem_cons_of_mem _ hm', hk, hv⟩

theorem pySplitWsGo_words (s : List Char) :
    ∀ cur, cur.all (fun c => ! isPyWhitespace c) →
      ∀ w ∈ pySplitWsGo s cur, w ≠ [] ∧ w.all (fun c => ! isPyWhitespace c) := by
  induction s with
  | nil =>
    intro cur hcur w hw
    simp only [pySplitWsGo] at hw
    split at hw
    · simp at hw
    · next hne =>
      simp only [List.mem_singleton] at hw
      subst hw
      refine ⟨?_, by simpa using hcur⟩
      simpa [List.isEmpty_iff] using hne
  | cons c t ih =>
    intro cur hcur w hw
    simp only [pySplitWsGo] at hw
    by_cases hc : isPyWhitespace c
    · rw [if_pos hc] at hw
      split at hw
      · exact ih [] (by simp) w hw
      · next hne =>
        rcases List.mem_cons.mp hw with hw | hw
        · subst hw
          refine ⟨?_, by simpa using hcur⟩
          simpa [List.isEmpty_iff] using hne
        · exact ih [] (by simp) w hw
    · rw [if_neg hc] at hw
      exact ih (c :: cur) (by simp [hcur, hc]) w hw

theorem pySplitWs_words (s : List Char) :
    ∀ w ∈ pySplitWs s, w ≠ [] ∧ w.all (fun c => ! isPyWhitespace c) :=
  pySplitWsGo_words s [] (by simp)

theorem joinSpace_ne_nil (w : List Char) (ws : List (List Char)) (hw : w ≠ []) :
    joinSpace (w :: ws) ≠ [] := by
  cases ws <;> simp [joinSpace, hw]

theorem noLeadWs_joinSpace (w : List Char) (ws : List (List Char)) (hne : w ≠ [])
    (hw : w.all (fun c => ! isPyWhitespace c)) : noLeadWs (joinSpace (w :: ws)) := by
  cases w with
  | nil => exact absurd rfl hne
  | cons c t =>
    simp only [List.all_cons, Bool.and_eq_true] at hw
    cases ws with
    | nil => simp [joinSpace, noLeadWs, hw.1]
    | cons w2 ws' => simp [joinSpace, noLeadWs, hw.1]

theorem noDoubleWs_append (w s : List Char) (hw : w.all (fun c => ! isPyWhitespace c))
    (hs : noDoubleWs s) : noDoubleWs (w ++ s) := by
  induction w with
  | nil => exact hs
  | cons c w' ih =>
    simp only [List.all_cons, Bool.and_eq_true] at hw
    have ih' := ih hw.2
    rw [List.cons_append]
    cases hsplit : w' ++ s with
    | nil => rfl
    | cons d t =>
      have hc : isPyWhitespace c = false := by simpa using hw.1
      simp only [noDoubleWs, hc, Bool.false_and, Bool.not_false, Bool.true_and]
      rw [← hsplit]
      exact ih'

theorem noTrailWs_append_ne (w s : List Char) (hs : s ≠ []) :
    noTrailWs (w ++ s) = noTrailWs s := by
  induction w with
  | nil => rfl
  | cons c w' ih =>
    rw [List.cons_append]
    cases hsplit : w' ++ s with
    | nil =>
      exact absurd (List.append_eq_nil.mp hsplit).2 hs
    | cons d t =>
      rw [show noTrailWs (c :: d :: t) = noTrailWs (d :: t) from rfl, ← hsplit]
      exact ih

theorem noTrailWs_of_all (w : List Char) (hw : w.all (fun c => ! isPyWhitespace c)) :
    noTrailWs w := by
  induction w with
  | nil => rfl
  | cons c t ih =>
    simp only [List.all_cons, Bool.and_eq_true] at hw
    cases t with
    | nil => simpa [noTrailWs] using hw.1
    | cons d t' =>
      show noTrailWs (d :: t') = true
      exact ih hw.2

theorem joinSpace_props (ws : List (List Char))
    (h : ∀ w ∈ ws, w ≠ [] ∧ w.all (fun c => ! isPyWhitespace c)) :
    noLeadWs (joinSpace ws) ∧ noTrailWs (joinSpace ws) ∧ noDoubleWs (joinSpace ws) := by
  induction ws with
  | nil => exact ⟨rfl, rfl, rfl⟩
  | cons w ws' ih =>
    obtain ⟨hw_ne, hw_all⟩ := h w (List.mem_cons_self _ _)
    have ih' := ih (fun w' hw' => h w' (List.mem_cons_of_mem _ hw'))
    cases ws' with
    | nil =>
      refine ⟨noLeadWs_joinSpace w [] hw_ne hw_all, ?_, ?_⟩
      · show noTrailWs w = true
        exact noTrailWs_of_all w hw_all
      · show noDoubleWs w = true
        have := noDoubleWs_append w [] hw_all rfl
        simpa using this
    | cons w2 ws'' =>
      obtain ⟨hw2_ne, _⟩ := h w2 (List.mem_cons_of_mem _ (List.mem_cons_self _ _))
      have hJ_ne : joinSpace (w2 :: ws'') ≠ [] := joinSpace_ne_nil w2 ws'' hw2_ne
      have hJ_lead : noLeadWs (joinSpace (w2 :: ws'')) := ih'.1
      have hJ_trail : noTrailWs (joinSpace (w2 :: ws'')) := ih'.2.1
      have hJ_double : noDoubleWs (joinSpace (w2 :: ws'')) := ih'.2.2
      have hshow : joinSpace (w :: w2 :: ws'') = w ++ ' ' :: joinSpace (w2 :: ws'') := rfl
      refine ⟨noLeadWs_joinSpace w (w2 :: ws'') hw_ne hw_all, ?_, ?_⟩
      · rw [hshow, noTrailWs_append_ne w _ (by simp),
          show (' ' :: joinSpace (w2 :: ws'')) = [' '] ++ joinSpace (w2 :: ws'') from rfl,
          noTrailWs_append_ne [' '] _ hJ_ne]
        exact hJ_trail
      · rw [hshow]
        refine noDoubleWs_append w _ hw_all ?_
        cases hJ : joinSpace (w2 :: ws'') with
        | nil => exact absurd hJ hJ_ne
        | cons d t =>
          show noDoubleWs (' ' :: d :: t) = true
          have hd : isPyWhitespace d = false := by
            have := hJ_lead
            rw [hJ] at this
            simpa [noLeadWs] using this
          simp only [noDoubleWs, hd, Bool.and_false, Bool.not_false, Bool.true_and]
          rw [← hJ]
          exact hJ_double

theorem normalizeWs_props (s : List Char) :
    noLeadWs (normalizeWs s) ∧ noTrailWs (normalizeWs s) ∧ noDoubleWs (normalizeWs s) :=
  joinSpace_props (pySplitWs s) (pySplitWs_words s)

/-- Claim C8 (confirmed): for every filename whose lower-cased extension is
not one of `.txt`, `.pdf`, `.docx`, `.html`, `.htm`, `extract_text_from_file`
returns the empty string regardless of the file's byte content and
regardless of the parsers' behavior, and raises nothing. -/
theorem extract_text_unsupported_extension (P : Parsers) (f : UploadedFile)
    (h : pyLower (pySuffix f.name) ∉
      [(".txt" : String).data, (".pdf" : String).data, (".docx" : String).data,
       (".html" : String).data, (".htm" : String).data]) :
    extract_text_from_file P f = .ok "" := by
  simp only [List.mem_cons, List.not_mem_nil, or_false, not_or] at h
  obtain ⟨h1, h2, h3, h4, h5⟩ := h
  unfold extract_text_from_file
  simp only []
  rw [if_neg h1, if_neg h2, if_neg h3, if_neg (by exact not_or.mpr ⟨h4, h5⟩)]

/-- Witness for claim C8 at the concrete file `notes.md` with non-empty
content. -/
theorem extract_text_unsupported_extension_witness :
    extract_text_from_file realParsers ⟨"notes.md", [1, 2, 3]⟩ = .ok "" :=
  extract_text_unsupported_extension realParsers ⟨"notes.md", [1, 2, 3]⟩ (by decide)

/-- Claim C5 (confirmed): for every question and every context string, the
string passed to the external answer-providing capability is exactly the
first 4000 characters of the context — its length is `min 4000` of the
context's length, it is an initial segment of the context, and when the
context is at most 4000 characters it is passed whole. -/
theorem get_answer_truncates (qaModel : String → String → String) (question context : String) :
    get_answer qaModel question context = qaModel question (truncate4000 context) ∧
    (truncate4000 context).length = min 4000 context.length ∧
    context.data = (truncate4000 context).data ++ context.data.drop 4000 ∧
    (context.length ≤ 4000 → truncate4000 context = context) := by
  refine ⟨rfl, List.length_take 4000 context.data, (List.take_append_drop 4000 context.data).symm, ?_⟩
  intro h
  show String.mk (context.data.take 4000) = context
  rw [List.take_of_length_le h]

/-- Witness for claim C5: a context shorter than 4000 characters reaches
the capability unchanged. -/
theorem get_answer_truncates_witness :
    truncate4000 "short context" = "short context" ∧
    get_answer (fun _ c => c) "q" "short context" = "short context" := by
  have h := get_answer_truncates (fun _ c => c) "q" "short context"
  refine ⟨h.2.2.2 (by decide), ?_⟩
  rw [h.1, h.2.2.2 (by decide)]

/-- Claim C3 (code bug): with one uploaded `a.txt` file of empty content,
every file's extracted text is empty, yet the Q&A pipeline reaches the
`answered` outcome — the answer-providing capability is invoked with a
context consisting only of the delimiter header — because the header
`===== a.txt =====` makes `all_text.strip()` non-empty, so the
"could not read any text" error branch (the distinct "no extractable
text" condition the claim describes) is unreachable whenever at least one
file is uploaded. -/
theorem qa_pipeline_headers_defeat_empty_check :
    extract_text_from_file realParsers ⟨"a.txt", []⟩ = .ok "" ∧
    qa_pipeline realParsers "What?" [⟨"a.txt", []⟩] =
      .ok (.answered "\n\n===== a.txt =====\n\n") ∧
    pyStripStr "\n\n===== a.txt =====\n\n" ≠ "" :=
  ⟨rfl, rfl, by decide⟩

/-- Claim C10 (confirmed): the input `a   (AB)` yields the mapping
`AB ↦ a` whose value is shorter than 3 characters after normalization,
because the pattern's 3-character minimum applies to the raw captured run
(here `a` followed by three spaces), not to the normalized value. -/
theorem extract_abbreviations_short_value :
    extract_abbreviations "a   (AB)" = [("AB", "a")] ∧ ("a" : String).length < 3 :=
  ⟨by decide, by decide⟩

/-- Counterexample to claim C1 as stated: a corrupt (empty) PDF stream
makes the pdf parser fail, and `extract_text_from_file` does not catch the
failure and does not return the empty string — the parser's exception
passes through. -/
theorem extract_text_pdf_failure_not_empty_string :
    extract_text_from_file realParsers ⟨"broken.pdf", []⟩ =
      .error "EmptyFileError: Cannot read an empty file" ∧
    extract_text_from_file realParsers ⟨"broken.pdf", []⟩ ≠ .ok "" := by
  refine ⟨rfl, ?_⟩
  rw [show extract_text_from_file realParsers ⟨"broken.pdf", []⟩ =
    .error "EmptyFileError: Cannot read an empty file" from rfl]
  simp

/-- Counterexample to claim C2 as stated: on empty bytes with the `.docx`
extension, the docx parser raises (the underlying zip layer rejects an
empty stream) and `extract_text_from_file` propagates the exception
instead of returning the empty string. -/
theorem extract_text_empty_docx_raises :
    extract_text_from_file realParsers ⟨"empty.docx", []⟩ =
      .error "BadZipFile: File is not a zip file" ∧
    extract_text_from_file realParsers ⟨"empty.docx", []⟩ ≠ .ok "" := by
  refine ⟨rfl, ?_⟩
  rw [show extract_text_from_file realParsers ⟨"empty.docx", []⟩ =
    .error "BadZipFile: File is not a zip file" from rfl]
  simp

/-- Counterexample to claim C6 as stated: the pattern exactly as the
specification describes it (no word-boundary requirement,
`spec_extract_abbreviations`) matches `abc (AB)` inside `x3abc (AB)`, but
the source pattern begins with `\b`, so `extract_abbreviations` returns
nothing there — the term's first letter is preceded by the word character
`3`. -/
theorem extract_abbreviations_requires_word_boundary :
    extract_abbreviations "x3abc (AB)" = [] ∧
    spec_extract_abbreviations "x3abc (AB)" = [("AB", "abc")] :=
  ⟨by decide, by decide⟩

/-- Claim C1 (corrected): when a format-specific parser fails,
`extract_text_from_file` does not catch the failure — it returns the
parser's error unchanged for the `.pdf` and `.docx` branches (no
`try`/`except` exists in the source), and a failing file aborts the whole
batch accumulation of the Q&A pipeline. -/
theorem extract_text_propagates_parser_error (P : Parsers) (f : UploadedFile) (e : String) :
    (pyLower (pySuffix f.name) = (".pdf" : String).data → P.pdfPages f.content = .error e →
      extract_text_from_file P f = .error e) ∧
    (pyLower (pySuffix f.name) = (".docx" : String).data → P.docxParagraphs f.content = .error e →
      extract_text_from_file P f = .error e) ∧
    (∀ fs acc, extract_text_from_file P f = .error e →
      build_all_text P (f :: fs) acc = .error e) := by
  refine ⟨?_, ?_, ?_⟩
  · intro hs hp
    unfold extract_text_from_file
    simp only []
    rw [hs, if_neg (by decide), if_pos (by decide), hp]
  · intro hs hp
    unfold extract_text_from_file
    simp only []
    rw [hs, if_neg (by decide), if_neg (by decide), if_pos (by decide), hp]
  · intro fs acc hext
    unfold build_all_text
    rw [hext]

/-- Witness for claim C1's corrected statement: a failing first file
(`doc.pdf`, empty stream) aborts a two-file batch. -/
theorem extract_text_propagates_parser_error_witness :
    extract_text_from_file realParsers ⟨"doc.pdf", []⟩ =
      .error "EmptyFileError: Cannot read an empty file" ∧
    build_all_text realParsers [⟨"doc.pdf", []⟩, ⟨"ok.txt", asciiBytes "hello"⟩] "" =
      .error "EmptyFileError: Cannot read an empty file" := by
  have h := extract_text_propagates_parser_error realParsers ⟨"doc.pdf", []⟩
    "EmptyFileError: Cannot read an empty file"
  have h1 := h.1 (by decide) rfl
  exact ⟨h1, h.2.2 [⟨"ok.txt", asciiBytes "hello"⟩] "" h1⟩

/-- Claim C2 (corrected): on empty bytes, `extract_text_from_file` returns
the empty string without raising for the `.txt`, `.html`, and `.htm`
extensions, but for `.pdf` and `.docx` the underlying parser raises on an
empty stream (pypdf `EmptyFileError`; python-docx's zip layer
`BadZipFile`) and the extractor propagates the exception. -/
theorem extract_text_empty_bytes (P : Parsers) (name : String) :
    (pyLower (pySuffix name) = (".txt" : String).data →
      extract_text_from_file P ⟨name, []⟩ = .ok "") ∧
    (pyLower (pySuffix name) = (".html" : String).data ∨
        pyLower (pySuffix name) = (".htm" : String).data →
      extract_text_from_file realParsers ⟨name, []⟩ = .ok "") ∧
    (pyLower (pySuffix name) = (".pdf" : String).data →
      extract_text_from_file realParsers ⟨name, []⟩ =
        .error "EmptyFileError: Cannot read an empty file") ∧
    (pyLower (pySuffix name) = (".docx" : String).data →
      extract_text_from_file realParsers ⟨name, []⟩ =
        .error "BadZipFile: File is not a zip file") := by
  refine ⟨?_, ?_, ?_, ?_⟩
  · intro hs
    unfold extract_text_from_file
    simp only []
    rw [hs, if_pos (by decide)]
    rfl
  · intro hs
    unfold extract_text_from_file
    simp only []
    rcases hs with hs | hs <;>
      rw [hs, if_neg (by decide), if_neg (by decide), if_neg (by decide),
        if_pos (by simp [hs])] <;> rfl
  · intro hs
    unfold extract_text_from_file
    simp only []
    rw [hs, if_neg (by decide), if_pos (by decide)]
    rfl
  · intro hs
    unfold extract_text_from_file
    simp only []
    rw [hs, if_neg (by decide), if_neg (by decide), if_pos (by decide)]
    rfl

/-- Witness for claim C2's corrected statement at one concrete empty file
per supported extension. -/
theorem extract_text_empty_bytes_witness :
    extract_text_from_file realParsers ⟨"a.txt", []⟩ = .ok "" ∧
    extract_text_from_file realParsers ⟨"b.html", []⟩ = .ok "" ∧
    extract_text_from_file realParsers ⟨"c.htm", []⟩ = .ok "" ∧
    extract_text_from_file realParsers ⟨"d.pdf", []⟩ =
      .error "EmptyFileError: Cannot read an empty file" ∧
    extract_text_from_file realParsers ⟨"e.docx", []⟩ =
      .error "BadZipFile: File is not a zip file" :=
  ⟨(extract_text_empty_bytes realParsers "a.txt").1 (by decide),
   (extract_text_empty_bytes realParsers "b.html").2.1 (Or.inl (by decide)),
   (extract_text_empty_bytes realParsers "c.htm").2.1 (Or.inr (by decide)),
   (extract_text_empty_bytes realParsers "d.pdf").2.2.1 (by decide),
   (extract_text_empty_bytes realParsers "e.docx").2.2.2 (by decide)⟩

/-- Claim C7 (confirmed): every full-term value stored in the mapping
returned by `extract_abbreviations` has no leading or trailing whitespace
and no two adjacent whitespace characters (all internal whitespace runs
collapsed to single spaces), and `foo   bar  (FB)` yields
`FB ↦ foo bar`. -/
theorem extract_abbreviations_values_normalized :
    (∀ text k v, (k, v) ∈ extract_abbreviations text →
      noLeadWs v.data ∧ noTrailWs v.data ∧ noDoubleWs v.data) ∧
    extract_abbreviations "foo   bar  (FB)" = [("FB", "foo bar")] := by
  constructor
  · intro text k v h
    rcases buildDict_mem _ _ _ _ h with h' | ⟨m, _, _, hv⟩
    · simp at h'
    · subst hv
      exact normalizeWs_props m.1
  · decide

/-- Witness for claim C7 at the value produced for `foo   bar  (FB)`. -/
theorem extract_abbreviations_values_normalized_witness :
    noLeadWs ("foo bar" : String).data ∧ noTrailWs ("foo bar" : String).data ∧
      noDoubleWs ("foo bar" : String).data :=
  extract_abbreviations_values_normalized.1 "foo   bar  (FB)" "FB" "foo bar" (by decide)

theorem matchAcronymLen_spec (s : List Char) (k : Nat) (g rest : List Char)
    (h : matchAcronymLen s k = some (g, rest)) :
    g.length = k ∧ g.all isUpperChar ∧ s = g ++ ')' :: rest := by
  unfold matchAcronymLen at h
  simp only [] at h
  split at h
  · next hcond =>
    simp only [Bool.and_eq_true, decide_eq_true_eq] at hcond
    split at h
    · next hdrop =>
      obtain ⟨hg, hr⟩ := Prod.mk.injEq .. ▸ (Option.some.injEq .. ▸ h)
      subst hg
      subst hr
      exact ⟨hcond.1, hcond.2, by rw [← hdrop, List.take_append_drop]⟩
    · exact absurd h (by simp)
  · exact absurd h (by simp)

theorem matchAcronymFrom_spec (n : Nat) (s g rest : List Char) (hn : n ≤ 10)
    (h : matchAcronymFrom n s = some (g, rest)) :
    2 ≤ g.length ∧ g.length ≤ 10 ∧ g.all isUpperChar ∧ s = g ++ ')' :: rest := by
  induction n with
  | zero => exact absurd h (by simp [matchAcronymFrom])
  | succ n ih =>
    match n, h with
    | 0, h => exact absurd h (by simp [matchAcronymFrom])
    | n' + 1, h =>
      rw [show n' + 1 + 1 = n' + 2 from rfl, matchAcronymFrom] at h
      cases hlen : matchAcronymLen s (n' + 2) with
      | some r =>
        rw [hlen] at h
        obtain ⟨hg, hrest⟩ := Prod.mk.injEq .. ▸ (Option.some.injEq .. ▸ h)
        obtain ⟨hl, hu, hs⟩ := matchAcronymLen_spec s (n' + 2) r.1 r.2 (by rw [hlen])
        rw [hg] at hl hu
        rw [hg, hrest] at hs
        exact ⟨by omega, by omega, hu, hs⟩
      | none =>
        rw [hlen] at h
        exact ih (by omega) h

theorem matchG1From_acronym (n : Nat) (c : Char) (t g1 g2 rest : List Char)
    (h : matchG1From n c t = some (g1, g2, rest)) :
    2 ≤ g2.length ∧ g2.length ≤ 10 ∧ g2.all isUpperChar := by
  induction n with
  | zero => exact absurd h (by simp [matchG1From])
  | succ n ih =>
    match n, h with
    | 0, h => exact absurd h (by simp [matchG1From])
    | n' + 1, h =>
      simp only [show n' + 1 + 1 = n' + 2 from rfl, matchG1From] at h
      split at h
      · next r hterm =>
        simp only [Option.some.injEq] at h
        subst h
        split at hterm
        · split at hterm
          · next s1 hopen =>
            split at hterm
            · next p1 p2 hac =>
              simp only [Option.some.injEq, Prod.mk.injEq] at hterm
              obtain ⟨-, hg2, -⟩ := hterm
              have hsp := matchAcronymFrom_spec 10 s1 p1 p2 (by omega) hac
              rw [hg2] at hsp
              exact ⟨hsp.1, hsp.2.1, hsp.2.2.1⟩
            · exact absurd hterm (by simp)
          · exact absurd hterm (by simp)
        · exact absurd hterm (by simp)
      · exact ih h

theorem matchAt_acronym (s g1 g2 rest : List Char)
    (h : matchAt s = some (g1, g2, rest)) :
    2 ≤ g2.length ∧ g2.length ≤ 10 ∧ g2.all isUpperChar := by
  cases s with
  | nil => exact absurd h (by simp [matchAt])
  | cons c t =>
    rw [matchAt] at h
    split at h
    · exact matchG1From_acronym _ c t g1 g2 rest h
    · exact absurd h (by simp)

theorem findallAux_acronym (fuel : Nat) :
    ∀ (prev : Bool) (s g1 g2 : List Char), (g1, g2) ∈ findallAux fuel prev s →
      2 ≤ g2.length ∧ g2.length ≤ 10 ∧ g2.all isUpperChar := by
  induction fuel with
  | zero => intro prev s g1 g2 h; exact absurd h (by simp [findallAux])
  | succ fuel ih =>
    intro prev s g1 g2 h
    cases s with
    | nil => exact absurd h (by simp [findallAux])
    | cons c t =>
      rw [findallAux] at h
      split at h
      · cases hm : matchAt (c :: t) with
        | some r =>
          rw [hm] at h
          rcases List.mem_cons.mp h with he | he
          · obtain ⟨h1, h2⟩ := Prod.mk.injEq .. ▸ he
            subst h2
            exact matchAt_acronym (c :: t) r.1 r.2.1 r.2.2 (by rw [hm])
          · exact ih false r.2.2 g1 g2 he
        | none =>
          rw [hm] at h
          exact ih (isWordChar c) t g1 g2 h
      · exact ih (isWordChar c) t g1 g2 h

theorem pyStrip_of_all_nonws (g : List Char) (h : ∀ c ∈ g, isPyWhitespace c = false) :
    pyStrip g = g := by
  have h1 : g.dropWhile isPyWhitespace = g := by
    cases g with
    | nil => rfl
    | cons c t => simp [List.dropWhile, h c (List.mem_cons_self _ _)]
  have h2 : g.reverse.dropWhile isPyWhitespace = g.reverse := by
    cases hg : g.reverse with
    | nil => rfl
    | cons c t =>
      have hc : c ∈ g := by
        rw [← List.mem_reverse, hg]
        exact List.mem_cons_self _ _
      simp [List.dropWhile, h c hc]
  unfold pyStrip
  rw [h1, h2, List.reverse_reverse]

theorem upper_not_ws (c : Char) (h : isUpperChar c = true) : isPyWhitespace c = false := by
  by_contra hws
  have hws' : isPyWhitespace c = true := by simpa using hws
  simp only [isPyWhitespace, Bool.or_eq_true, decide_eq_true_eq] at hws'
  rcases hws' with ((((h1 | h1) | h1) | h1) | h1) | h1 <;> (subst h1; revert h; decide)

/-- Claim C6 (corrected): `extract_abbreviations` matches the described
pattern only at word boundaries (see the counterexample theorem); with
that correction, the spec's example `weighted degree centrality (WDC)`
yields exactly `WDC ↦ weighted degree centrality`, and for every input
text every acronym key in the result has 2 to 10 uppercase ASCII letters —
so an acronym of 1 letter or of 11 or more letters never produces an
entry, illustrated on `(A)` and an 11-letter acronym. -/
theorem extract_abbreviations_pattern_keys :
    extract_abbreviations "weighted degree centrality (WDC)" =
      [("WDC", "weighted degree centrality")] ∧
    (∀ text k v, (k, v) ∈ extract_abbreviations text →
      2 ≤ k.length ∧ k.length ≤ 10 ∧ k.data.all isUpperChar) ∧
    extract_abbreviations "alpha beta (A)" = [] ∧
    extract_abbreviations "alpha beta (ABCDEFGHIJK)" = [] := by
  refine ⟨by decide, ?_, by decide, by decide⟩
  intro text k v h
  rcases buildDict_mem _ _ _ _ h with h' | ⟨m, hm, hk, -⟩
  · simp at h'
  · have hb := findallAux_acronym _ _ _ m.1 m.2 (by simpa using hm)
    have hstrip : pyStrip m.2 = m.2 :=
      pyStrip_of_all_nonws m.2 (fun c hc => upper_not_ws c (List.all_eq_true.mp hb.2.2 c hc))
    subst hk
    show 2 ≤ (pyStrip m.2).length ∧ (pyStrip m.2).length ≤ 10 ∧ (pyStrip m.2).all isUpperChar
    rw [hstrip]
    exact hb

/-- Witness for claim C6's corrected statement at the key `WDC`. -/
theorem extract_abbreviations_pattern_keys_witness :
    2 ≤ ("WDC" : String).length ∧ ("WDC" : String).length ≤ 10 ∧
      ("WDC" : String).data.all isUpperChar :=
  extract_abbreviations_pattern_keys.2.1 "weighted degree centrality (WDC)" "WDC"
    "weighted degree centrality" (by decide)

theorem charListLt_irrefl (a : List Char) : charListLt a a = false := by
  induction a with
  | nil => rfl
  | cons c t ih => simp [charListLt, ih]

theorem charListLt_trans (a b c : List Char) (hab : charListLt a b = true)
    (hbc : charListLt b c = true) : charListLt a c = true := by
  induction a generalizing b c with
  | nil =>
    cases b with
    | nil => exact absurd hab (by simp [charListLt])
    | cons y ys =>
      cases c with
      | nil => exact absurd hbc (by simp [charListLt])
      | cons z zs => rfl
  | cons x xs ih =>
    cases b with
    | nil => exact absurd hab (by simp [charListLt])
    | cons y ys =>
      cases c with
      | nil => exact absurd hbc (by simp [charListLt])
      | cons z zs =>
        simp only [charListLt] at hab hbc ⊢
        by_cases hxy : x.toNat < y.toNat
        · by_cases hyz : y.toNat < z.toNat
          · rw [if_pos (by omega)]
          · rw [if_neg hyz] at hbc
            by_cases hzy : z.toNat < y.toNat
            · rw [if_pos hzy] at hbc
              exact absurd hbc (by simp)
            · rw [if_neg hzy] at hbc
              rw [if_pos (by omega)]
        · rw [if_neg hxy] at hab
          by_cases hyx : y.toNat < x.toNat
          · rw [if_pos hyx] at hab
            exact absurd hab (by simp)
          · rw [if_neg hyx] at hab
            by_cases hyz : y.toNat < z.toNat
            · rw [if_pos (by omega)]
            · rw [if_neg hyz] at hbc
              by_cases hzy : z.toNat < y.toNat
              · rw [if_pos hzy] at hbc
                exact absurd hbc (by simp)
              · rw [if_neg hzy] at hbc
                rw [if_neg (by omega), if_neg (by omega)]
                exact ih ys zs hab hbc

theorem charListLt_connex (a b : List Char) (hab : charListLt a b = false)
    (hba : charListLt b a = false) : a = b := by
  induction a generalizing b with
  | nil =>
    cases b with
    | nil => rfl
    | cons y ys => exact absurd hab (by simp [charListLt])
  | cons x xs ih =>
    cases b with
    | nil => exact absurd hba (by simp [charListLt])
    | cons y ys =>
      simp only [charListLt] at hab hba
      by_cases hxy : x.toNat < y.toNat
      · rw [if_pos hxy] at hab
        exact absurd hab (by simp)
      · by_cases hyx : y.toNat < x.toNat
        · rw [if_pos hyx] at hba
          exact absurd hba (by simp)
        · rw [if_neg hxy, if_neg (by omega)] at hab
          rw [if_neg hyx, if_neg (by omega)] at hba
          have hxyn : x.toNat = y.toNat := by omega
          have hx : x = y := Char.ext (UInt32.ext hxyn)
          rw [hx, ih ys hab hba]

theorem strLeB_total (x y : String) (h : strLeB x y = false) : strLeB y x = true := by
  have h' : charListLt y.data x.data = true := by simpa [strLeB] using h
  have hf : charListLt x.data y.data = false := by
    by_contra hc
    have hc' : charListLt x.data y.data = true := by simpa using hc
    have hir := charListLt_trans _ _ _ hc' h'
    rw [charListLt_irrefl] at hir
    exact absurd hir (by simp)
  simp [strLeB, hf]

theorem strLeB_trans (x y z : String) (hxy : strLeB x y = true) (hyz : strLeB y z = true) :
    strLeB x z = true := by
  have hxy' : charListLt y.data x.data = false := by simpa [strLeB] using hxy
  have hyz' : charListLt z.data y.data = false := by simpa [strLeB] using hyz
  have hf : charListLt z.data x.data = false := by
    by_contra hc
    have hzx : charListLt z.data x.data = true := by simpa using hc
    by_cases hyzlt : charListLt y.data z.data = true
    · have h2 := charListLt_trans _ _ _ hyzlt hzx
      rw [hxy'] at h2
      exact absurd h2 (by simp)
    · have heq : y.data = z.data := charListLt_connex _ _ (by simpa using hyzlt) hyz'
      rw [← heq, hxy'] at hzx
      exact absurd hzx (by simp)
  simp [strLeB, hf]

theorem mem_insertStr (a x : String) (l : List String) :
    a ∈ insertStr x l ↔ a = x ∨ a ∈ l := by
  induction l with
  | nil => simp [insertStr]
  | cons y t ih =>
    simp only [insertStr]
    by_cases h : strLeB x y
    · rw [if_pos h]
      simp [List.mem_cons]
    · rw [if_neg h]
      simp only [List.mem_cons, ih]
      tauto

theorem mem_sortStrs (a : String) (l : List String) : a ∈ sortStrs l ↔ a ∈ l := by
  induction l with
  | nil => simp [sortStrs]
  | cons x t ih =>
    simp only [sortStrs, mem_insertStr, ih, List.mem_cons]

theorem pairwise_insertStr (x : String) (l : List String)
    (h : List.Pairwise (fun a b => strLeB a b = true) l) :
    List.Pairwise (fun a b => strLeB a b = true) (insertStr x l) := by
  induction l with
  | nil => simp [insertStr]
  | cons y t ih =>
    rw [List.pairwise_cons] at h
    obtain ⟨hy, ht⟩ := h
    simp only [insertStr]
    by_cases hxy : strLeB x y
    · rw [if_pos hxy]
      refine List.Pairwise.cons ?_ (List.Pairwise.cons hy ht)
      intro z hz
      rcases List.mem_cons.mp hz with hz | hz
      · rw [hz]; exact hxy
      · exact strLeB_trans x y z hxy (hy z hz)
    · rw [if_neg hxy]
      refine List.Pairwise.cons ?_ (ih ht)
      intro z hz
      rcases (mem_insertStr z x t).mp hz with hz | hz
      · rw [hz]
        exact strLeB_total x y (by simpa using hxy)
      · exact hy z hz

theorem pairwise_sortStrs (l : List String) :
    List.Pairwise (fun a b => strLeB a b = true) (sortStrs l) := by
  induction l with
  | nil => exact List.Pairwise.nil
  | cons x t ih => exact pairwise_insertStr x (sortStrs t) ih

theorem lookup_isSome_of_mem_keys (k : String) (d : List (String × String))
    (h : k ∈ d.map Prod.fst) : (List.lookup k d).isSome := by
  induction d with
  | nil => simp at h
  | cons hd t ih =>
    simp only [List.map_cons, List.mem_cons] at h
    simp only [List.lookup]
    by_cases he : (k == hd.1) = true
    · rw [he]
      simp
    · have he' : (k == hd.1) = false := by simpa using he
      rw [he']
      rcases h with h | h
      · exact absurd (beq_iff_eq.mpr h) (by simpa using he)
      · exact ih h

theorem mem_keys_of_lookup_eq_some (k v : String) (d : List (String × String))
    (h : List.lookup k d = some v) : k ∈ d.map Prod.fst := by
  induction d with
  | nil => simp [List.lookup] at h
  | cons hd t ih =>
    simp only [List.lookup] at h
    by_cases he : k == hd.1
    · simp only [List.map_cons, List.mem_cons]
      exact Or.inl (eq_of_beq he)
    · simp only [Bool.not_eq_true] at he
      rw [he] at h
      simp only [List.map_cons, List.mem_cons]
      exact Or.inr (ih h)

theorem mem_renderIndex (d : List (String × String)) (k v : String) :
    (k, v) ∈ renderIndex d ↔ List.lookup k d = some v := by
  unfold renderIndex
  constructor
  · intro h
    obtain ⟨k', hk', hkv⟩ := List.mem_map.mp h
    have hk : k' = k := congrArg Prod.fst hkv
    subst hk
    have hv : (List.lookup k' d).getD "" = v := congrArg Prod.snd hkv
    have hmem : k' ∈ d.map Prod.fst := (mem_sortStrs k' _).mp hk'
    obtain ⟨w, hw⟩ := Option.isSome_iff_exists.mp (lookup_isSome_of_mem_keys k' d hmem)
    rw [hw] at hv ⊢
    rw [← hv]
    rfl
  · intro h
    rw [List.mem_map]
    refine ⟨k, (mem_sortStrs k _).mpr (mem_keys_of_lookup_eq_some k v d h), ?_⟩
    rw [h]
    rfl

/-- Claim C9 (confirmed): in the abbreviation-index pipeline, a file whose
mapping is empty renders the distinct "no abbreviations found" indicator,
and a file whose mapping is non-empty renders the pairs sorted
lexicographically ascending by acronym key (by code point, as Python's
`sorted` on strings), the rendered pairs being exactly the mapping's
bindings. -/
theorem abbr_index_sorted_rendering (P : Parsers) (f : UploadedFile) (text : String)
    (hex : extract_text_from_file P f = .ok text) :
    ((extract_abbreviations text).isEmpty = true →
      abbr_pipeline_file P f = .ok .noAbbreviationsFound) ∧
    ((extract_abbreviations text).isEmpty = false →
      abbr_pipeline_file P f = .ok (.index (renderIndex (extract_abbreviations text))) ∧
      List.Pairwise (fun a b => strLeB a b = true)
        ((renderIndex (extract_abbreviations text)).map Prod.fst) ∧
      ∀ k v, ((k, v) ∈ renderIndex (extract_abbreviations text) ↔
        List.lookup k (extract_abbreviations text) = some v)) := by
  constructor
  · intro hempty
    simp only [abbr_pipeline_file, hex]
    rw [if_pos hempty]
  · intro hne
    refine ⟨?_, ?_, fun k v => mem_renderIndex _ k v⟩
    · simp only [abbr_pipeline_file, hex]
      rw [if_neg (by simp [hne])]
    · have hmap : (renderIndex (extract_abbreviations text)).map Prod.fst =
          sortStrs ((extract_abbreviations text).map Prod.fst) := by
        unfold renderIndex
        rw [List.map_map]
        rw [show (Prod.fst ∘ fun k => (k,
          (List.lookup k (extract_abbreviations text)).getD "")) = id from rfl, List.map_id]
      rw [hmap]
      exact pairwise_sortStrs _

/-- Witness for claim C9: one file with two abbreviations (rendered in
sorted order) and one file with none. -/
theorem abbr_index_sorted_rendering_witness :
    abbr_pipeline_file realParsers ⟨"a.txt", asciiBytes "zeta one (ZO) alpha two (AT)"⟩ =
      .ok (.index (renderIndex (extract_abbreviations "zeta one (ZO) alpha two (AT)"))) ∧
    (("AT", "alpha two") ∈ renderIndex (extract_abbreviations "zeta one (ZO) alpha two (AT)") ↔
      List.lookup "AT" (extract_abbreviations "zeta one (ZO) alpha two (AT)") = some "alpha two") ∧
    abbr_pipeline_file realParsers ⟨"b.txt", asciiBytes "no parens here"⟩ =
      .ok .noAbbreviationsFound := by
  have ha := abbr_index_sorted_rendering realParsers
    ⟨"a.txt", asciiBytes "zeta one (ZO) alpha two (AT)"⟩ "zeta one (ZO) alpha two (AT)" rfl
  have hb := abbr_index_sorted_rendering realParsers
    ⟨"b.txt", asciiBytes "no parens here"⟩ "no parens here" rfl
  have ha2 := ha.2 (by decide)
  exact ⟨ha2.1, ha2.2.2 "AT" "alpha two", hb.1 (by decide)⟩
